import Mathlib

/-!
Hook preservation renderer (gengokit/handler/hooks.go).

Shallow embedding of `NewHook` and `HookRender.Render`.

Go values are embedded as follows.

* A Go `string` is a sequence of bytes.
* An `io.Reader` interface value is either `nil` or a reference to a stream
  object living on a heap; the heap is part of an explicit `World`.
* A `*HookRender` is a reference into a heap of `HookRender` structs.
* `hookTempl` is a package level constant declared in another file of the
  package; every definition takes it as a parameter.
* `gengokit.Data` is declared in another package; it is a type parameter and
  a `*gengokit.Data` is an optional value of it.
* A run time panic (nil dereference) is the result `none`.
-/

namespace Handler

/-- One byte of a Go string. -/
abbrev Byte := UInt8

/-- Go `string`: an immutable sequence of bytes. -/
abbrev GoString := List Byte

/-- Heap reference. -/
abbrev Addr := Nat

/-- Go `error` values that occur here; the Go `nil` error is `none` of
`Option GoError`. -/
inductive GoError where
  | EOF
  deriving DecidableEq

/-- Stream object in the shape of `strings.Reader`: the text `s` and the
current reading index `i`. -/
structure Reader where
  s : GoString
  i : Nat
  deriving DecidableEq

/-- The struct `HookRender`: the field `prev` is an `io.Reader` interface
value, `none` for the Go `nil`. -/
structure HookRender where
  prev : Option Addr
  deriving DecidableEq

/-- Explicit program state: the heap of stream objects and the heap of
`HookRender` structs. A reference is an index into the heap. -/
structure World where
  readers : List Reader
  hooks : List HookRender
  deriving DecidableEq

/-- The constant `HookPath`,
`"NAME/handlers/server/hooks.gotemplate"`, as bytes. -/
def HookPath : GoString :=
  [78, 65, 77, 69, 47, 104, 97, 110, 100, 108, 101, 114, 115, 47, 115, 101,
   114, 118, 101, 114, 47, 104, 111, 111, 107, 115, 46, 103, 111, 116, 101,
   109, 112, 108, 97, 116, 101]

/-- Bytes of a stream object that have not been read yet. -/
def Reader.remaining (r : Reader) : GoString := r.s.drop r.i

/-- Go `strings.NewReader(s)`: allocates a stream object over `s` with
reading index 0 and returns the reference to it. -/
def NewReader (w : World) (s : GoString) : Addr × World :=
  (w.readers.length, { w with readers := w.readers ++ [⟨s, 0⟩] })

/-- Go `(*strings.Reader).Read` on a buffer of `n` bytes: at the end of the
text it returns no bytes and `io.EOF`; otherwise it copies as many of the
remaining bytes as fit and advances the index by that number. -/
def Reader.Read (r : Reader) (n : Nat) : (GoString × Option GoError) × Reader :=
  if r.i ≥ r.s.length then
    (([], some GoError.EOF), r)
  else
    let b := (r.s.drop r.i).take n
    ((b, none), { r with i := r.i + b.length })

/-- Call of `Read` through a reference: `none` (panic) when the reference
does not point to a stream object. -/
def World.Read (w : World) (a : Addr) (n : Nat) :
    Option ((GoString × Option GoError) × World) :=
  match w.readers[a]? with
  | none => none
  | some r =>
    some ((r.Read n).1, { w with readers := w.readers.set a (r.Read n).2 })

/-- Full consumption of a stream in the manner of `io.ReadAll`: `Read` is
called with a buffer of `chunk` bytes until it reports an error, and the
bytes are accumulated. `fuel` bounds the number of `Read` calls; `none`
means a panic or that the fuel ran out. -/
def ReadAllLoop (chunk : Nat) : Nat → World → Addr → GoString → Option (GoString × World)
  | 0, _, _, _ => none
  | fuel + 1, w, a, acc =>
    match w.Read a chunk with
    | none => none
    | some ((b, some _), w1) => some (acc ++ b, w1)
    | some ((b, none), w1) => ReadAllLoop chunk fuel w1 a (acc ++ b)

/-- Full consumption of the stream behind an `io.Reader` interface value;
consuming the `nil` interface panics. -/
def ReadAll (chunk fuel : Nat) (w : World) (r : Option Addr) : Option (GoString × World) :=
  match r with
  | none => none
  | some a => ReadAllLoop chunk fuel w a []

/-- Source `NewHook(prev)`: allocates `&HookRender{prev: prev}` and returns
the reference. -/
def NewHook (w : World) (prev : Option Addr) : Addr × World :=
  (w.hooks.length, { w with hooks := w.hooks ++ [⟨prev⟩] })

/-- Source `(h *HookRender).Render(_, _)`: when `h.prev` is `nil` a new
reader over `hookTempl` is returned, otherwise `h.prev` itself; the error
is `nil` in both branches. Dereferencing an invalid `h` panics. -/
def Render {Data : Type} (hookTempl : GoString) (w : World) (h : Addr)
    (_ : GoString) (_ : Option Data) :
    Option ((Option Addr × Option GoError) × World) :=
  match w.hooks[h]? with
  | none => none
  | some hr =>
    if hr.prev = none then
      some ((some (NewReader w hookTempl).1, none), (NewReader w hookTempl).2)
    else
      some ((hr.prev, none), w)

/-! Observations on outcomes and clients of a renderer. -/

/-- The outcome `res` of a `Render` call made in world `w` is the default
template: the returned stream is a stream object allocated by the call,
over `hookTempl`, with nothing read. -/
def producedDefault (hookTempl : GoString) (w : World)
    (res : (Option Addr × Option GoError) × World) : Prop :=
  res.1.1 = some w.readers.length ∧ res.2.readers = w.readers ++ [⟨hookTempl, 0⟩]

instance (hookTempl : GoString) (w : World)
    (res : (Option Addr × Option GoError) × World) :
    Decidable (producedDefault hookTempl w res) := by
  unfold producedDefault
  infer_instance

/-- One step of a client that holds a single `HookRender`: a call of
`Render` with some arguments, or the full consumption of the stream that
the `j`-th `Render` call (counting from 0) returned. -/
inductive Op (Data : Type) where
  | render (path : GoString) (data : Option Data)
  | consume (j : Nat)

/-- State of a client run: the world, the streams returned by the `Render`
calls so far (in call order) and the consumed outputs so far, each tagged
with the index of the call whose stream was consumed. -/
structure Run where
  w : World
  returned : List (Option Addr)
  outputs : List (Nat × GoString)

/-- Executes one client step on the renderer `h`. -/
def stepOp {Data : Type} (hookTempl : GoString) (chunk fuel : Nat) (h : Addr)
    (st : Run) : Op Data → Option Run
  | Op.render path data =>
    match Render hookTempl st.w h path data with
    | none => none
    | some ((r, _), w1) =>
      some { w := w1, returned := st.returned ++ [r], outputs := st.outputs }
  | Op.consume j =>
    match st.returned[j]? with
    | none => none
    | some r =>
      match ReadAll chunk fuel st.w r with
      | none => none
      | some (out, w1) =>
        some { w := w1, returned := st.returned, outputs := st.outputs ++ [(j, out)] }

/-- Executes a sequence of client steps. -/
def runOps {Data : Type} (hookTempl : GoString) (chunk fuel : Nat) (h : Addr) :
    List (Op Data) → Run → Option Run
  | [], st => some st
  | op :: ops, st =>
    match stepOp hookTempl chunk fuel h st op with
    | none => none
    | some st1 => runOps hookTempl chunk fuel h ops st1

/-- A sequence of client steps is well formed after `n` earlier `Render`
calls and with the streams `consumed` already used up: every consumption
names a stream that has been returned and that has not been consumed. -/
def validOps {Data : Type} : Nat → List Nat → List (Op Data) → Bool
  | _, _, [] => true
  | n, consumed, Op.render _ _ :: ops => validOps (n + 1) consumed ops
  | n, consumed, Op.consume j :: ops =>
    decide (j < n) && decide (j ∉ consumed) && validOps n (j :: consumed) ops

/-- The indices consumed by a sequence of client steps, in order. -/
def consumedIndices {Data : Type} : List (Op Data) → List Nat
  | [] => []
  | Op.render _ _ :: ops => consumedIndices ops
  | Op.consume j :: ops => j :: consumedIndices ops

/-- Invariant of a client run on a renderer `h` that was constructed without
previous content, after `n` `Render` calls and with the streams `consumed`
used up. -/
structure ClientInv (hookTempl : GoString) (h : Nat) (n : Nat) (consumed : List Nat)
    (st : Run) : Prop where
  hook : st.w.hooks[h]? = some ⟨none⟩
  count : st.returned.length = n
  unread : ∀ (j : Nat) (a : Nat), st.returned[j]? = some (some a) → j ∉ consumed →
    st.w.readers[a]? = some ⟨hookTempl, 0⟩
  alloc : ∀ j : Nat, j < n → ∃ a : Nat, st.returned[j]? = some (some a) ∧ a < st.w.readers.length
  distinct : ∀ (j1 j2 : Nat) (a : Nat), st.returned[j1]? = some (some a) →
    st.returned[j2]? = some (some a) → j1 = j2
  outs : ∀ p ∈ st.outputs, p.2 = hookTempl

/-! Concrete inputs. -/

/-- A sample default template, the bytes of `"package handlers\n"`. -/
def sampleTempl : GoString :=
  [112, 97, 99, 107, 97, 103, 101, 32, 104, 97, 110, 100, 108, 101, 114,
   115, 10]

/-- The bytes of `"// user edit\nfunc CustomHook() \x7b\x7d\n"`. -/
def userEdit : GoString :=
  [47, 47, 32, 117, 115, 101, 114, 32, 101, 100, 105, 116, 10, 102, 117,
   110, 99, 32, 67, 117, 115, 116, 111, 109, 72, 111, 111, 107, 40, 41, 32,
   123, 125, 10]

/-- The bytes of `"services/foo/handlers/server/hooks.go"`. -/
def scenarioPath : GoString :=
  [115, 101, 114, 118, 105, 99, 101, 115, 47, 102, 111, 111, 47, 104, 97,
   110, 100, 108, 101, 114, 115, 47, 115, 101, 114, 118, 101, 114, 47, 104,
   111, 111, 107, 115, 46, 103, 111]

/-- A world with no objects. -/
def emptyWorld : World := ⟨[], []⟩

/-- A world whose only object is an unread stream over `userEdit`. -/
def userEditWorld : World := ⟨[⟨userEdit, 0⟩], []⟩

/-- A world whose only object is a stream over `userEdit` that has been read
to its end. -/
def exhaustedWorld : World := ⟨[⟨userEdit, 34⟩], []⟩

/-- A world holding one unread stream over `userEdit` and one renderer that
was constructed with it. -/
def renderedWorld : World := ⟨[⟨userEdit, 0⟩], [⟨some 0⟩]⟩

/-- A client that renders, consumes that stream, renders twice more and
consumes the two later streams in reverse order. -/
def sampleOps : List (Op Unit) :=
  [Op.render scenarioPath none, Op.consume 0, Op.render HookPath (some ()),
   Op.render [] none, Op.consume 2, Op.consume 1]

/-! Core lemmas on streams. -/

theorem set_self_of_getElem? {α : Type} (l : List α) (a : Nat) (x : α)
    (h : l[a]? = some x) : l.set a x = l := by
  apply List.ext_getElem?
  intro n
  by_cases hn : a = n
  · subst hn
    have hlt : a < l.length := by
      rcases List.getElem?_eq_some.mp h with ⟨hlt, _⟩
      exact hlt
    rw [List.getElem?_set_self hlt, h]
  · rw [List.getElem?_set_ne hn]

theorem Reader.remaining_length (r : Reader) :
    r.remaining.length = r.s.length - r.i := by
  simp [Reader.remaining]

/-- Consuming a stream object returns all of its remaining bytes after the
accumulated ones and leaves the object at the end of its text. -/
theorem ReadAllLoop_eq (chunk : Nat) (hc : 0 < chunk) :
    ∀ (fuel : Nat) (w : World) (a : Addr) (r : Reader) (acc : GoString),
      w.readers[a]? = some r → r.remaining.length < fuel →
      ReadAllLoop chunk fuel w a acc =
        some (acc ++ r.remaining,
          { w with readers := w.readers.set a ⟨r.s, max r.i r.s.length⟩ }) := by
  intro fuel
  induction fuel with
  | zero => intro w a r acc _ hf; exact absurd hf (Nat.not_lt_zero _)
  | succ fuel ih =>
    intro w a r acc hr hf
    have hlt : a < w.readers.length := by
      rcases List.getElem?_eq_some.mp hr with ⟨hlt, _⟩
      exact hlt
    by_cases hend : r.i ≥ r.s.length
    · have hrem : r.remaining = [] := by
        simp [Reader.remaining, List.drop_eq_nil_iff, hend]
      have hmax : max r.i r.s.length = r.i := max_eq_left hend
      have hread : r.Read chunk = (([], some GoError.EOF), r) := by
        simp [Reader.Read, hend]
      simp only [ReadAllLoop, World.Read, hr, hread, hrem, hmax, List.append_nil]
    · have hi : r.i < r.s.length := Nat.lt_of_not_le hend
      have hread : r.Read chunk =
          (((r.s.drop r.i).take chunk, none),
            ⟨r.s, r.i + ((r.s.drop r.i).take chunk).length⟩) := by
        simp [Reader.Read, hend]
      have hlen : ((r.s.drop r.i).take chunk).length = min chunk (r.s.length - r.i) := by
        simp
      have hget : (w.readers.set a ⟨r.s, r.i + ((r.s.drop r.i).take chunk).length⟩)[a]? =
          some ⟨r.s, r.i + ((r.s.drop r.i).take chunk).length⟩ :=
        List.getElem?_set_self hlt
      have hfuel : (Reader.mk r.s (r.i + ((r.s.drop r.i).take chunk).length)).remaining.length
          < fuel := by
        rw [Reader.remaining_length] at hf ⊢
        simp only [hlen]
        have : 1 ≤ min chunk (r.s.length - r.i) := by
          apply Nat.le_min.mpr
          omega
        omega
      simp only [ReadAllLoop, World.Read, hr, hread]
      rw [ih _ a _ _ hget hfuel]
      have hbytes : (Reader.mk r.s (r.i + ((r.s.drop r.i).take chunk).length)).remaining =
          (r.s.drop r.i).drop chunk := by
        simp only [Reader.remaining]
        rw [hlen, ← List.drop_drop]
        by_cases hcl : chunk ≤ r.s.length - r.i
        · rw [Nat.min_eq_left hcl]
        · have hle : r.s.length - r.i ≤ chunk := by omega
          rw [Nat.min_eq_right hle]
          rw [List.drop_eq_nil_iff.mpr (by simp), List.drop_eq_nil_iff.mpr (by simp; omega)]
      have hmax : max (r.i + ((r.s.drop r.i).take chunk).length) r.s.length =
          max r.i r.s.length := by
        rw [hlen]
        have : min chunk (r.s.length - r.i) ≤ r.s.length - r.i := Nat.min_le_right _ _
        rw [max_eq_right (by omega), max_eq_right (by omega)]
      simp only [hmax, List.set_set, List.append_assoc]
      rw [hbytes]
      simp only [Reader.remaining, List.take_append_drop]

/-- Consuming a stream through an interface value that refers to the stream
object `r` returns the remaining bytes of `r`. -/
theorem ReadAll_eq (chunk fuel : Nat) (w : World) (a : Addr) (r : Reader)
    (hc : 0 < chunk) (hr : w.readers[a]? = some r) (hf : r.remaining.length < fuel) :
    ReadAll chunk fuel w (some a) =
      some (r.remaining,
        { w with readers := w.readers.set a ⟨r.s, max r.i r.s.length⟩ }) := by
  have h := ReadAllLoop_eq chunk hc fuel w a r [] hr hf
  simpa [ReadAll] using h

/-- Consuming a stream object that has nothing left returns no bytes and
leaves the world as it is, whatever the buffer size. -/
theorem ReadAll_exhausted (chunk fuel : Nat) (w : World) (a : Addr) (r : Reader)
    (hr : w.readers[a]? = some r) (hrem : r.remaining = []) (hf : 0 < fuel) :
    ReadAll chunk fuel w (some a) = some ([], w) := by
  obtain ⟨k, rfl⟩ : ∃ k, fuel = k + 1 := ⟨fuel - 1, by omega⟩
  have hend : r.i ≥ r.s.length := by
    have := congrArg List.length hrem
    rw [Reader.remaining_length] at this
    simp at this
    omega
  have hread : r.Read chunk = (([], some GoError.EOF), r) := by
    simp [Reader.Read, hend]
  simp only [ReadAll, ReadAllLoop, World.Read, hr, hread, List.append_nil,
    set_self_of_getElem? _ _ _ hr]

/-- The renderer allocated by `NewHook` holds exactly the given `prev`. -/
theorem NewHook_hooks (w : World) (prev : Option Addr) :
    (NewHook w prev).2.hooks[(NewHook w prev).1]? = some ⟨prev⟩ := by
  simp [NewHook]

theorem NewHook_readers (w : World) (prev : Option Addr) :
    (NewHook w prev).2.readers = w.readers := rfl

/-- The `nil` branch of `Render`. -/
theorem Render_absent {Data : Type} (hookTempl : GoString) (w : World) (h : Addr)
    (P : GoString) (D : Option Data) (hh : w.hooks[h]? = some ⟨none⟩) :
    Render hookTempl w h P D =
      some ((some w.readers.length, none),
        { w with readers := w.readers ++ [⟨hookTempl, 0⟩] }) := by
  simp [Render, hh, NewReader]

/-- The `else` branch of `Render`. -/
theorem Render_present {Data : Type} (hookTempl : GoString) (w : World) (h : Addr)
    (P : GoString) (D : Option Data) (a : Addr) (hh : w.hooks[h]? = some ⟨some a⟩) :
    Render hookTempl w h P D = some ((some a, none), w) := by
  simp [Render, hh]

/-! Clients of a renderer without previous content. -/

theorem lt_length_of_getElem? {α : Type} (l : List α) (a : Nat) (x : α)
    (h : l[a]? = some x) : a < l.length := by
  rcases List.getElem?_eq_some.mp h with ⟨hlt, _⟩
  exact hlt

/-- The invariant holds right after construction with `nil`. -/
theorem ClientInv.init (hookTempl : GoString) (w : World) :
    ClientInv hookTempl (NewHook w none).1 0 [] ⟨(NewHook w none).2, [], []⟩ where
  hook := NewHook_hooks w none
  count := rfl
  unread := by intro j a hj; simp at hj
  alloc := by intro j hj; exact absurd hj (Nat.not_lt_zero _)
  distinct := by intro j1 j2 a hj; simp at hj
  outs := by intro p hp; simp at hp

/-- A `Render` step keeps the invariant and records one more stream. -/
theorem ClientInv.render_step {Data : Type} (hookTempl : GoString) (chunk fuel : Nat)
    (h : Addr) (n : Nat) (consumed : List Nat) (st : Run) (P : GoString) (D : Option Data)
    (inv : ClientInv hookTempl h n consumed st) :
    ∃ st1, stepOp hookTempl chunk fuel h st (Op.render P D) = some st1 ∧
      ClientInv hookTempl h (n + 1) consumed st1 ∧ st1.outputs = st.outputs := by
  have hR := Render_absent hookTempl st.w h P D inv.hook
  refine ⟨⟨{ st.w with readers := st.w.readers ++ [⟨hookTempl, 0⟩] },
    st.returned ++ [some st.w.readers.length], st.outputs⟩, ?_, ?_, rfl⟩
  · simp only [stepOp, hR]
  · have hold : ∀ (j : Nat) (a : Nat),
        (st.returned ++ [some st.w.readers.length])[j]? = some (some a) →
        (st.returned[j]? = some (some a) ∧ j < n) ∨ (j = n ∧ a = st.w.readers.length) := by
      intro j a hj
      by_cases hlt : j < st.returned.length
      · rw [List.getElem?_append_left hlt] at hj
        exact Or.inl ⟨hj, inv.count ▸ hlt⟩
      · have hge : st.returned.length ≤ j := Nat.le_of_not_lt hlt
        rw [List.getElem?_append_right hge] at hj
        have hlen := lt_length_of_getElem? _ _ _ hj
        simp only [List.length_singleton] at hlen
        have hz : j - st.returned.length = 0 := by omega
        rw [hz] at hj
        simp only [List.getElem?_cons_zero, Option.some.injEq] at hj
        refine Or.inr ⟨?_, hj.symm⟩
        have := inv.count
        omega
    have hbound : ∀ (j : Nat) (a : Nat), st.returned[j]? = some (some a) →
        a < st.w.readers.length := by
      intro j a hj
      have hjn : j < n := inv.count ▸ lt_length_of_getElem? _ _ _ hj
      obtain ⟨b, hb, hlt⟩ := inv.alloc j hjn
      rw [hj] at hb
      simp only [Option.some.injEq] at hb
      exact hb ▸ hlt
    constructor
    · exact inv.hook
    · simp [inv.count]
    · intro j a hj hnc
      rcases hold j a hj with ⟨hj0, _⟩ | ⟨_, ha⟩
      · have hlt := hbound j a hj0
        show (st.w.readers ++ [(⟨hookTempl, 0⟩ : Reader)])[a]? = _
        rw [List.getElem?_append_left hlt]
        exact inv.unread j a hj0 hnc
      · subst ha
        show (st.w.readers ++ [(⟨hookTempl, 0⟩ : Reader)])[st.w.readers.length]? = _
        simp
    · intro j hj
      by_cases hjn : j < n
      · obtain ⟨a, ha, hlt⟩ := inv.alloc j hjn
        refine ⟨a, ?_, ?_⟩
        · show (st.returned ++ [some st.w.readers.length])[j]? = _
          rw [List.getElem?_append_left (inv.count.symm ▸ hjn)]
          exact ha
        · show a < (st.w.readers ++ [(⟨hookTempl, 0⟩ : Reader)]).length
          simp only [List.length_append, List.length_singleton]
          omega
      · have hjeq : j = st.returned.length := by
          have := inv.count
          omega
        refine ⟨st.w.readers.length, ?_, ?_⟩
        · show (st.returned ++ [some st.w.readers.length])[j]? = _
          rw [hjeq]
          simp
        · show st.w.readers.length < (st.w.readers ++ [(⟨hookTempl, 0⟩ : Reader)]).length
          simp
    · intro j1 j2 a h1 h2
      rcases hold j1 a h1 with ⟨h10, _⟩ | ⟨h1n, h1a⟩
      · rcases hold j2 a h2 with ⟨h20, _⟩ | ⟨_, h2a⟩
        · exact inv.distinct j1 j2 a h10 h20
        · have := hbound j1 a h10
          omega
      · rcases hold j2 a h2 with ⟨h20, _⟩ | ⟨h2n, _⟩
        · have := hbound j2 a h20
          omega
        · omega
    · exact inv.outs

/-- Consuming a stream that was returned and not consumed before yields the
default template and keeps the invariant. -/
theorem ClientInv.consume_step {Data : Type} (hookTempl : GoString) (chunk fuel : Nat)
    (h : Addr) (n : Nat) (consumed : List Nat) (st : Run) (j : Nat)
    (inv : ClientInv hookTempl h n consumed st)
    (hc : 0 < chunk) (hf : hookTempl.length < fuel) (hj : j < n) (hnc : j ∉ consumed) :
    ∃ st1, stepOp hookTempl chunk fuel h st (Op.consume j : Op Data) = some st1 ∧
      ClientInv hookTempl h n (j :: consumed) st1 ∧
      st1.outputs = st.outputs ++ [(j, hookTempl)] := by
  obtain ⟨a, ha, hlt⟩ := inv.alloc j hj
  have hr := inv.unread j a ha hnc
  have hread := ReadAll_eq chunk fuel st.w a ⟨hookTempl, 0⟩ hc hr
    (by simpa [Reader.remaining] using hf)
  simp only [Reader.remaining, List.drop_zero] at hread
  refine ⟨⟨{ st.w with readers := st.w.readers.set a ⟨hookTempl, max 0 hookTempl.length⟩ },
    st.returned, st.outputs ++ [(j, hookTempl)]⟩, ?_, ?_, rfl⟩
  · simp only [stepOp, ha, hread]
  · constructor
    · exact inv.hook
    · exact inv.count
    · intro j1 a1 hj1 hnc1
      have hne : j1 ≠ j := fun e => hnc1 (e ▸ List.mem_cons_self _ _)
      have hnc2 : j1 ∉ consumed := fun e => hnc1 (List.mem_cons_of_mem _ e)
      have hane : a ≠ a1 := by
        intro e
        subst e
        exact hne (inv.distinct j1 j a hj1 ha)
      show (st.w.readers.set a _)[a1]? = _
      rw [List.getElem?_set_ne hane]
      exact inv.unread j1 a1 hj1 hnc2
    · intro j1 hj1
      obtain ⟨a1, ha1, hlt1⟩ := inv.alloc j1 hj1
      refine ⟨a1, ha1, ?_⟩
      show a1 < (st.w.readers.set a _).length
      rw [List.length_set]
      exact hlt1
    · exact inv.distinct
    · intro p hp
      have hp2 : p ∈ st.outputs ++ [(j, hookTempl)] := hp
      rcases List.mem_append.mp hp2 with hp1 | hp1
      · exact inv.outs p hp1
      · simp only [List.mem_singleton] at hp1
        rw [hp1]

/-- A well formed client run on a renderer without previous content runs to
its end, produces one output per consumption, in order, and every output
is the default template. -/
theorem runOps_of_inv {Data : Type} (hookTempl : GoString) (chunk fuel : Nat) (h : Addr)
    (hc : 0 < chunk) (hf : hookTempl.length < fuel) :
    ∀ (ops : List (Op Data)) (n : Nat) (consumed : List Nat) (st : Run),
      ClientInv hookTempl h n consumed st → validOps n consumed ops = true →
      ∃ fin, runOps hookTempl chunk fuel h ops st = some fin ∧
        fin.outputs.map Prod.fst = st.outputs.map Prod.fst ++ consumedIndices ops ∧
        ∀ p ∈ fin.outputs, p.2 = hookTempl := by
  intro ops
  induction ops with
  | nil =>
    intro n consumed st inv _
    exact ⟨st, rfl, by simp [consumedIndices], inv.outs⟩
  | cons op ops ih =>
    intro n consumed st inv hv
    cases op with
    | render P D =>
      obtain ⟨st1, hstep, inv1, hout⟩ :=
        ClientInv.render_step hookTempl chunk fuel h n consumed st P D inv
      obtain ⟨fin, hrun, hidx, hall⟩ := ih (n + 1) consumed st1 inv1 (by simpa [validOps] using hv)
      refine ⟨fin, ?_, ?_, hall⟩
      · simp only [runOps, hstep, hrun]
      · rw [hidx, hout]
        simp [consumedIndices]
    | consume j =>
      simp only [validOps, Bool.and_eq_true, decide_eq_true_eq] at hv
      obtain ⟨⟨hj, hnc⟩, hrest⟩ := hv
      obtain ⟨st1, hstep, inv1, hout⟩ :=
        @ClientInv.consume_step Data hookTempl chunk fuel h n consumed st j inv hc hf hj hnc
      obtain ⟨fin, hrun, hidx, hall⟩ := ih n (j :: consumed) st1 inv1 hrest
      refine ⟨fin, ?_, ?_, hall⟩
      · simp only [runOps, hstep, hrun]
      · rw [hidx, hout]
        simp [consumedIndices]

/-! The claims. -/

/-- C1: for every output path and data context, a renderer constructed by
`NewHook` with `nil` previous content returns from `Render` a stream and a
`nil` error, and fully consuming that stream yields exactly `hookTempl`. -/
theorem render_absent_yields_default {Data : Type} (hookTempl : GoString) (w : World)
    (P : GoString) (D : Option Data) (chunk fuel : Nat)
    (hc : 0 < chunk) (hf : hookTempl.length < fuel) :
    ∃ r w1 w2,
      Render hookTempl (NewHook w none).2 (NewHook w none).1 P D = some ((r, none), w1) ∧
      ReadAll chunk fuel w1 r = some (hookTempl, w2) := by
  have h1 := Render_absent hookTempl (NewHook w none).2 (NewHook w none).1 P D
    (NewHook_hooks w none)
  have hr : ((NewHook w none).2.readers ++ [(⟨hookTempl, 0⟩ : Reader)])[
      (NewHook w none).2.readers.length]? = some ⟨hookTempl, 0⟩ := by
    simp
  have h2 := ReadAll_eq chunk fuel
    { (NewHook w none).2 with readers := (NewHook w none).2.readers ++ [⟨hookTempl, 0⟩] }
    _ _ hc hr (by simpa [Reader.remaining] using hf)
  exact ⟨_, _, _, h1, by simpa [Reader.remaining] using h2⟩

/-- C1 at Scenario A: no previous content, the path
`services/foo/handlers/server/hooks.go` and an empty data context. -/
theorem render_absent_yields_default_witness :
    0 < 512 ∧ sampleTempl.length < 18 ∧
    ∃ r w1 w2,
      Render sampleTempl (NewHook emptyWorld none).2 (NewHook emptyWorld none).1
        scenarioPath (some ()) = some ((r, none), w1) ∧
      ReadAll 512 18 w1 r = some (sampleTempl, w2) :=
  ⟨by decide, by decide,
    render_absent_yields_default sampleTempl emptyWorld scenarioPath (some ()) 512 18
      (by decide) (by decide)⟩

/-- C2: for every output path, data context and byte sequence `C`, a
renderer constructed by `NewHook` with a stream whose content is `C`
returns from `Render` that same stream with a `nil` error, the world (and
so the stream object) is exactly as before the call, and fully consuming
the result yields exactly `C`. -/
theorem render_present_passes_through {Data : Type} (hookTempl : GoString) (w : World)
    (a : Addr) (r : Reader) (C P : GoString) (D : Option Data) (chunk fuel : Nat)
    (hr : w.readers[a]? = some r) (hC : r.remaining = C)
    (hc : 0 < chunk) (hf : C.length < fuel) :
    Render hookTempl (NewHook w (some a)).2 (NewHook w (some a)).1 P D =
        some ((some a, none), (NewHook w (some a)).2) ∧
      (NewHook w (some a)).2.readers[a]? = some r ∧
      ∃ w2, ReadAll chunk fuel (NewHook w (some a)).2 (some a) = some (C, w2) := by
  have h1 := Render_present hookTempl (NewHook w (some a)).2 (NewHook w (some a)).1 P D a
    (NewHook_hooks w (some a))
  have h2 := ReadAll_eq chunk fuel (NewHook w (some a)).2 a r hc hr (by rw [hC]; exact hf)
  rw [hC] at h2
  exact ⟨h1, hr, _, h2⟩

/-- C2 at Scenario B: the previous content is the unread stream over
`"// user edit\nfunc CustomHook() \x7b\x7d\n"`. -/
theorem render_present_passes_through_witness :
    userEditWorld.readers[0]? = some ⟨userEdit, 0⟩ ∧
    Reader.remaining ⟨userEdit, 0⟩ = userEdit ∧ 0 < 512 ∧ userEdit.length < 35 ∧
    (Render sampleTempl (NewHook userEditWorld (some 0)).2 (NewHook userEditWorld (some 0)).1
        scenarioPath (none : Option Unit) =
        some ((some 0, none), (NewHook userEditWorld (some 0)).2) ∧
      (NewHook userEditWorld (some 0)).2.readers[0]? = some ⟨userEdit, 0⟩ ∧
      ∃ w2, ReadAll 512 35 (NewHook userEditWorld (some 0)).2 (some 0) =
        some (userEdit, w2)) :=
  ⟨rfl, rfl, by decide, by decide,
    render_present_passes_through sampleTempl userEditWorld 0 ⟨userEdit, 0⟩ userEdit
      scenarioPath none 512 35 rfl rfl (by decide) (by decide)⟩

/-- C3: `Render` never fails. For every world, every `prev` given to
`NewHook` (`nil` or not), every output path and every data context (`nil`
included), `Render` returns, its error is `nil` and its stream is not
`nil`. -/
theorem render_never_fails {Data : Type} (hookTempl : GoString) (w : World)
    (prev : Option Addr) (P : GoString) (D : Option Data) :
    ∃ r w1, Render hookTempl (NewHook w prev).2 (NewHook w prev).1 P D =
      some ((some r, none), w1) := by
  cases prev with
  | none =>
    exact ⟨_, _, Render_absent hookTempl _ _ P D (NewHook_hooks w none)⟩
  | some a =>
    exact ⟨_, _, Render_present hookTempl _ _ P D a (NewHook_hooks w (some a))⟩

/-- C4: the outcome of `Render` does not depend on its arguments. From the
same world and on the same renderer, two calls with any two pairs of path
and data context return the same stream, the same error and the same
world, fall in the same class (default template or not), and consuming
their streams yields the same bytes. The class is fixed by the `prev` given
at construction: renderers built with the same `prev` in any two worlds
fall in the same class for any arguments, and a present `prev` is the
stream returned. -/
theorem render_ignores_arguments {Data : Type} (hookTempl : GoString) (w : World)
    (h : Addr) (P1 P2 : GoString) (D1 D2 : Option Data) (chunk fuel : Nat) :
    Render hookTempl w h P1 D1 = Render hookTempl w h P2 D2 ∧
    ((Render hookTempl w h P1 D1).map (fun res => decide (producedDefault hookTempl w res)) =
      (Render hookTempl w h P2 D2).map (fun res => decide (producedDefault hookTempl w res))) ∧
    ((Render hookTempl w h P1 D1).bind (fun res => ReadAll chunk fuel res.2 res.1.1) =
      (Render hookTempl w h P2 D2).bind (fun res => ReadAll chunk fuel res.2 res.1.1)) ∧
    (∀ (w2 : World) (prev : Option Addr),
      (Render hookTempl (NewHook w prev).2 (NewHook w prev).1 P1 D1).map
          (fun res => decide (producedDefault hookTempl (NewHook w prev).2 res)) =
        (Render hookTempl (NewHook w2 prev).2 (NewHook w2 prev).1 P2 D2).map
          (fun res => decide (producedDefault hookTempl (NewHook w2 prev).2 res))) ∧
    (∀ (w2 : World) (a : Addr),
      (Render hookTempl (NewHook w (some a)).2 (NewHook w (some a)).1 P1 D1).map
          (fun res => res.1) = some (some a, none) ∧
        (Render hookTempl (NewHook w2 (some a)).2 (NewHook w2 (some a)).1 P2 D2).map
          (fun res => res.1) = some (some a, none)) := by
  refine ⟨rfl, rfl, rfl, ?_, ?_⟩
  · intro w2 prev
    cases prev with
    | none =>
      rw [Render_absent hookTempl _ _ P1 D1 (NewHook_hooks w none),
        Render_absent hookTempl _ _ P2 D2 (NewHook_hooks w2 none)]
      simp [producedDefault]
    | some a =>
      rw [Render_present hookTempl _ _ P1 D1 a (NewHook_hooks w (some a)),
        Render_present hookTempl _ _ P2 D2 a (NewHook_hooks w2 (some a))]
      simp [producedDefault]
  · intro w2 a
    rw [Render_present hookTempl _ _ P1 D1 a (NewHook_hooks w (some a)),
      Render_present hookTempl _ _ P2 D2 a (NewHook_hooks w2 (some a))]
    exact ⟨rfl, rfl⟩

/-- C5: single consumption. On a renderer constructed with a stream whose
content is `C`, both `Render` calls return the same stream with a `nil`
error; once the stream of the first call has been consumed (yielding `C`),
the second call, made before or after that consumption, returns a stream
whose consumption yields no bytes. -/
theorem render_twice_second_empty {Data : Type} (hookTempl : GoString) (w : World)
    (a : Addr) (r : Reader) (C P1 P2 : GoString) (D1 D2 : Option Data) (chunk fuel : Nat)
    (hr : w.readers[a]? = some r) (hC : r.remaining = C)
    (hc : 0 < chunk) (hf : C.length < fuel) :
    ∃ w2,
      Render hookTempl (NewHook w (some a)).2 (NewHook w (some a)).1 P1 D1 =
        some ((some a, none), (NewHook w (some a)).2) ∧
      Render hookTempl (NewHook w (some a)).2 (NewHook w (some a)).1 P2 D2 =
        some ((some a, none), (NewHook w (some a)).2) ∧
      ReadAll chunk fuel (NewHook w (some a)).2 (some a) = some (C, w2) ∧
      Render hookTempl w2 (NewHook w (some a)).1 P2 D2 = some ((some a, none), w2) ∧
      ReadAll chunk fuel w2 (some a) = some ([], w2) := by
  have hlt : a < w.readers.length := by
    rcases List.getElem?_eq_some.mp hr with ⟨hlt, _⟩
    exact hlt
  have h1 := Render_present hookTempl (NewHook w (some a)).2 (NewHook w (some a)).1 P1 D1 a
    (NewHook_hooks w (some a))
  have h2 := Render_present hookTempl (NewHook w (some a)).2 (NewHook w (some a)).1 P2 D2 a
    (NewHook_hooks w (some a))
  have h3 := ReadAll_eq chunk fuel (NewHook w (some a)).2 a r hc hr (by rw [hC]; exact hf)
  rw [hC] at h3
  have hr2 : ((NewHook w (some a)).2.readers.set a ⟨r.s, max r.i r.s.length⟩)[a]? =
      some ⟨r.s, max r.i r.s.length⟩ := List.getElem?_set_self hlt
  have h4 := Render_present hookTempl
    { (NewHook w (some a)).2 with
      readers := (NewHook w (some a)).2.readers.set a ⟨r.s, max r.i r.s.length⟩ }
    (NewHook w (some a)).1 P2 D2 a (NewHook_hooks w (some a))
  have h5 := ReadAll_exhausted chunk fuel
    { (NewHook w (some a)).2 with
      readers := (NewHook w (some a)).2.readers.set a ⟨r.s, max r.i r.s.length⟩ }
    a _ hr2 (by simp [Reader.remaining]) (by omega)
  exact ⟨_, h1, h2, h3, h4, h5⟩

/-- C5 at Scenario C: the previous content is the unread stream over
`userEdit` and `Render` is called twice. -/
theorem render_twice_second_empty_witness :
    userEditWorld.readers[0]? = some ⟨userEdit, 0⟩ ∧
    Reader.remaining ⟨userEdit, 0⟩ = userEdit ∧ 0 < 8 ∧ userEdit.length < 35 ∧
    ∃ w2,
      Render sampleTempl (NewHook userEditWorld (some 0)).2 (NewHook userEditWorld (some 0)).1
        scenarioPath (none : Option Unit) =
        some ((some 0, none), (NewHook userEditWorld (some 0)).2) ∧
      Render sampleTempl (NewHook userEditWorld (some 0)).2 (NewHook userEditWorld (some 0)).1
        HookPath (some ()) =
        some ((some 0, none), (NewHook userEditWorld (some 0)).2) ∧
      ReadAll 8 35 (NewHook userEditWorld (some 0)).2 (some 0) = some (userEdit, w2) ∧
      Render sampleTempl w2 (NewHook userEditWorld (some 0)).1 HookPath (some ()) =
        some ((some 0, none), w2) ∧
      ReadAll 8 35 w2 (some 0) = some ([], w2) :=
  ⟨rfl, rfl, by decide, by decide,
    render_twice_second_empty sampleTempl userEditWorld 0 ⟨userEdit, 0⟩ userEdit
      scenarioPath HookPath none (some ()) 8 35 rfl rfl (by decide) (by decide)⟩

/-- C6: `Render` leaves the explicit state alone. On any renderer `h`, the
call returns, the heap of renderers is unchanged (so `prev` is the same
value), every stream object that existed before the call is the same object
after it, and when `prev` is present the whole world is unchanged: nothing
was read from the previous content. -/
theorem render_frame {Data : Type} (hookTempl : GoString) (w : World) (h : Addr)
    (hr : HookRender) (P : GoString) (D : Option Data) (hh : w.hooks[h]? = some hr) :
    ∃ res w2, Render hookTempl w h P D = some (res, w2) ∧
      w2.hooks = w.hooks ∧ w2.hooks[h]? = some hr ∧
      (∀ (a : Addr) (st : Reader), w.readers[a]? = some st → w2.readers[a]? = some st) ∧
      (∀ a : Addr, hr.prev = some a → res.1 = some a ∧ w2 = w) := by
  rcases hr with ⟨prev⟩
  cases prev with
  | none =>
    refine ⟨_, _, Render_absent hookTempl w h P D hh, rfl, hh, ?_, ?_⟩
    · intro a st hst
      have hlt : a < w.readers.length := by
        rcases List.getElem?_eq_some.mp hst with ⟨hlt, _⟩
        exact hlt
      simp only [List.getElem?_append_left hlt, hst]
    · intro a ha
      simp at ha
  | some b =>
    refine ⟨_, _, Render_present hookTempl w h P D b hh, rfl, hh, ?_, ?_⟩
    · intro a st hst
      exact hst
    · intro a ha
      simp only [Option.some.injEq] at ha
      subst ha
      exact ⟨rfl, rfl⟩

/-- C6 on a renderer that holds the unread stream over `userEdit`. -/
theorem render_frame_witness :
    renderedWorld.hooks[0]? = some ⟨some 0⟩ ∧
    ∃ res w2, Render sampleTempl renderedWorld 0 scenarioPath (none : Option Unit) =
        some (res, w2) ∧
      w2.hooks = renderedWorld.hooks ∧ w2.hooks[0]? = some ⟨some 0⟩ ∧
      (∀ (a : Addr) (st : Reader), renderedWorld.readers[a]? = some st → w2.readers[a]? = some st) ∧
      (∀ a : Addr, (HookRender.mk (some 0)).prev = some a → res.1 = some a ∧ w2 = renderedWorld) :=
  ⟨rfl, render_frame sampleTempl renderedWorld 0 ⟨some 0⟩ scenarioPath none rfl⟩

/-- C8: the decision looks at the presence of previous content only. A
renderer constructed with a stream that has nothing left to read (empty
content, or read to its end) returns that stream, not the default template,
and its consumed output is empty; and for every `prev` the default template
is produced exactly when `prev` is `nil`. -/
theorem decision_ignores_content {Data : Type} (hookTempl : GoString) (w : World)
    (a : Addr) (r : Reader) (P : GoString) (D : Option Data) (chunk fuel : Nat)
    (hr : w.readers[a]? = some r) (hrem : r.remaining = []) (hf : 0 < fuel) :
    (Render hookTempl (NewHook w (some a)).2 (NewHook w (some a)).1 P D =
        some ((some a, none), (NewHook w (some a)).2) ∧
      ¬ producedDefault hookTempl (NewHook w (some a)).2
        ((some a, none), (NewHook w (some a)).2) ∧
      ReadAll chunk fuel (NewHook w (some a)).2 (some a) =
        some ([], (NewHook w (some a)).2)) ∧
    (∀ prev : Option Addr, ∃ res,
      Render hookTempl (NewHook w prev).2 (NewHook w prev).1 P D = some res ∧
      (producedDefault hookTempl (NewHook w prev).2 res ↔ prev = none)) := by
  refine ⟨⟨Render_present hookTempl _ _ P D a (NewHook_hooks w (some a)), ?_,
    ReadAll_exhausted chunk fuel (NewHook w (some a)).2 a r hr hrem hf⟩, ?_⟩
  · intro hp
    have := congrArg List.length hp.2
    simp at this
  · intro prev
    cases prev with
    | none =>
      refine ⟨_, Render_absent hookTempl _ _ P D (NewHook_hooks w none), ?_⟩
      simp [producedDefault]
    | some b =>
      refine ⟨_, Render_present hookTempl _ _ P D b (NewHook_hooks w (some b)), ?_⟩
      simp [producedDefault]

/-- C8 on a stream over `userEdit` that was read to its end before the
renderer was constructed. -/
theorem decision_ignores_content_witness :
    exhaustedWorld.readers[0]? = some ⟨userEdit, 34⟩ ∧
    Reader.remaining ⟨userEdit, 34⟩ = [] ∧ 0 < 1 ∧
    ((Render sampleTempl (NewHook exhaustedWorld (some 0)).2
          (NewHook exhaustedWorld (some 0)).1 scenarioPath (none : Option Unit) =
        some ((some 0, none), (NewHook exhaustedWorld (some 0)).2) ∧
      ¬ producedDefault sampleTempl (NewHook exhaustedWorld (some 0)).2
        ((some 0, none), (NewHook exhaustedWorld (some 0)).2) ∧
      ReadAll 512 1 (NewHook exhaustedWorld (some 0)).2 (some 0) =
        some ([], (NewHook exhaustedWorld (some 0)).2)) ∧
    (∀ prev : Option Addr, ∃ res,
      Render sampleTempl (NewHook exhaustedWorld prev).2 (NewHook exhaustedWorld prev).1
        scenarioPath (none : Option Unit) = some res ∧
      (producedDefault sampleTempl (NewHook exhaustedWorld prev).2 res ↔ prev = none))) :=
  ⟨rfl, rfl, by decide,
    decision_ignores_content sampleTempl exhaustedWorld 0 ⟨userEdit, 34⟩ scenarioPath none
      512 1 rfl rfl (by decide)⟩

/-- C7: without previous content every `Render` call returns a new,
independent stream. For a renderer constructed with `nil`, any sequence of
`Render` calls and full consumptions, in which each consumption takes a
stream returned earlier and not consumed yet, runs to its end; it yields
one output per consumption, in the order of the consumptions, and every
output is the whole of `hookTempl`. -/
theorem render_absent_streams_independent {Data : Type} (hookTempl : GoString)
    (w : World) (ops : List (Op Data)) (chunk fuel : Nat)
    (hc : 0 < chunk) (hf : hookTempl.length < fuel) (hv : validOps 0 [] ops = true) :
    ∃ fin, runOps hookTempl chunk fuel (NewHook w none).1 ops
        ⟨(NewHook w none).2, [], []⟩ = some fin ∧
      fin.outputs.map Prod.fst = consumedIndices ops ∧
      ∀ p ∈ fin.outputs, p.2 = hookTempl := by
  obtain ⟨fin, hrun, hidx, hall⟩ :=
    runOps_of_inv hookTempl chunk fuel (NewHook w none).1 hc hf ops 0 [] _
      (ClientInv.init hookTempl w) hv
  exact ⟨fin, hrun, by simpa using hidx, hall⟩

/-- C7 on a client that renders, consumes, renders twice more and consumes
the later streams in reverse order. -/
theorem render_absent_streams_independent_witness :
    0 < 4 ∧ sampleTempl.length < 18 ∧ validOps 0 [] sampleOps = true ∧
    ∃ fin, runOps sampleTempl 4 18 (NewHook emptyWorld none).1 sampleOps
        ⟨(NewHook emptyWorld none).2, [], []⟩ = some fin ∧
      fin.outputs.map Prod.fst = consumedIndices sampleOps ∧
      ∀ p ∈ fin.outputs, p.2 = sampleTempl :=
  ⟨by decide, by decide, by decide,
    render_absent_streams_independent sampleTempl emptyWorld sampleOps 4 18
      (by decide) (by decide) (by decide)⟩

end Handler
